import Mathlib

/-!
# Verification of the Minesweeper knowledge-base inference engine

Shallow embedding of `src/minesweeper.py` (classes `Sentence` and
`MinesweeperAI`) and proofs about the claims of the specification.

Modelling notes.

* A cell is a pair of natural-number coordinates `(row, column)`; all cells
  handled by the claims are in-bounds, so natural numbers suffice (the Python
  neighbour loop ranges over `i-1 .. i+1` and then filters `0 <= x < height`,
  which coincides with the natural-number clamping used below).
* A sentence's `count` is a Python `int`, which can be decremented below zero
  in principle, so it is embedded as `Int`.
* Python `Sentence` objects are mutable and shared between the lists
  `self.knowledge`, `knowledge_original` and `knowledge_modified` inside
  `add_knowledge`.  The embedding therefore uses a heap: `store` is the list
  of all sentence objects ever allocated (the object id is its index, fresh
  objects are appended), and every Python list of sentences is a list of ids.
  Mutating a sentence object mutates it in every list that holds its id,
  exactly as in Python.
* `list.remove(x)` removes the first element `==`-equal to the *current*
  value of `x` and raises `ValueError` when none exists; `Sentence.__eq__`
  compares cell set and count.  This is embedded by `removeFirstVal`
  returning `Except String`.
* The `while True` loop of `add_knowledge` has a crucial aliasing property:
  line `knowledge_original = knowledge_modified` makes both names refer to
  the *same* Python list object, and neither name is ever rebound again
  (`remove`/`append` mutate in place).  Hence from the second iteration on,
  the snapshot comparison `knowledge_modified == knowledge_original`
  compares a list with itself and is trivially true.  The embedding models
  the loop with explicit fuel and an `aliased` flag capturing list identity;
  the theorems below prove that fuel 2 always suffices.
-/

abbrev Cell := Nat × Nat

/-- Lexicographic order on cells, used only to enumerate a Python `set`
in some definite order (Python's own set-iteration order is arbitrary, and
every fold below is order-independent). -/
def cellLe (a b : Cell) : Prop :=
  a.1 < b.1 ∨ (a.1 = b.1 ∧ a.2 ≤ b.2)

instance : DecidableRel cellLe := fun a b => by
  unfold cellLe; infer_instance

theorem cellLe_total (a b : Cell) : cellLe a b ∨ cellLe b a := by
  unfold cellLe; omega

theorem cellLe_trans {a b c : Cell} (hab : cellLe a b)
    (hbc : cellLe b c) : cellLe a c := by
  unfold cellLe at hab hbc ⊢; omega

theorem cellLe_antisymm {a b : Cell} (hab : cellLe a b) (hba : cellLe b a) :
    a = b := by
  obtain ⟨a1, a2⟩ := a; obtain ⟨b1, b2⟩ := b
  unfold cellLe at hab hba
  simp only [Prod.mk.injEq]
  omega

/-- Insert a cell into a (sorted) list of cells, structurally recursive so
that it reduces inside the kernel. -/
def insertCell (c : Cell) : List Cell → List Cell
  | [] => [c]
  | x :: xs => if cellLe c x then c :: x :: xs else x :: insertCell c xs

theorem insertCell_comm (a b : Cell) (l : List Cell) :
    insertCell a (insertCell b l) = insertCell b (insertCell a l) := by
  rcases eq_or_ne a b with rfl | hne
  · rfl
  induction l with
  | nil =>
      simp only [insertCell]
      rcases cellLe_total a b with hab | hba
      · have hnba : ¬ cellLe b a := fun h => hne (cellLe_antisymm hab h)
        simp [insertCell, hab, hnba]
      · have hnab : ¬ cellLe a b := fun h => hne (cellLe_antisymm h hba)
        simp [insertCell, hba, hnab]
  | cons x xs ih =>
      by_cases hax : cellLe a x <;> by_cases hbx : cellLe b x
      · rcases cellLe_total a b with hab | hba
        · have hnba : ¬ cellLe b a := fun h => hne (cellLe_antisymm hab h)
          simp [insertCell, hax, hbx, hab, hnba]
        · have hnab : ¬ cellLe a b := fun h => hne (cellLe_antisymm h hba)
          simp [insertCell, hax, hbx, hba, hnab]
      · have hnba : ¬ cellLe b a := fun h => hbx (cellLe_trans h hax)
        simp [insertCell, hax, hbx, hnba]
      · have hnab : ¬ cellLe a b := fun h => hax (cellLe_trans h hbx)
        simp [insertCell, hax, hbx, hnab]
      · simp [insertCell, hax, hbx, ih]

instance : LeftCommutative insertCell := ⟨insertCell_comm⟩

/-- Enumerate a finite set of cells as a (sorted) list.  Any enumeration
order is as faithful as any other: Python iterates its `set`s in an
unspecified order and every fold below is order-independent. -/
def cellsToList (s : Finset Cell) : List Cell :=
  Multiset.foldr insertCell [] s.val

theorem mem_insertCell {a c : Cell} {l : List Cell} :
    a ∈ insertCell c l ↔ a = c ∨ a ∈ l := by
  induction l with
  | nil => simp [insertCell]
  | cons x xs ih =>
      by_cases h : cellLe c x
      · simp [insertCell, h]
      · simp [insertCell, h, ih]; tauto

theorem mem_cellsToList {a : Cell} {s : Finset Cell} :
    a ∈ cellsToList s ↔ a ∈ s := by
  show a ∈ Multiset.foldr insertCell [] s.val ↔ a ∈ s.val
  refine Multiset.induction_on s.val ?_ ?_
  · simp
  · intro c m ih
    simp [Multiset.foldr_cons, mem_insertCell, ih]

/-- Value of a Python `Sentence` object: a set of board cells and a count of
how many of them are mines (`self.cells`, `self.count`). -/
structure SentVal where
  cells : Finset Cell
  count : Int
deriving DecidableEq

/-- Embeds `Sentence.known_mines`: if the number of cells equals the count, all the
cells are mines, otherwise nothing is known. -/
def knownMines (v : SentVal) : Finset Cell :=
  if (v.cells.card : Int) = v.count then v.cells else ∅

/-- Embeds `Sentence.known_safes`: if the count is `0` the cells are all safe,
otherwise nothing is known. -/
def knownSafes (v : SentVal) : Finset Cell :=
  if v.count = 0 then v.cells else ∅

/-- Embeds `Sentence.mark_mine`: if the cell is present, remove it and decrement
the count; otherwise do nothing. -/
def sentMarkMine (v : SentVal) (c : Cell) : SentVal :=
  if c ∈ v.cells then ⟨v.cells.erase c, v.count - 1⟩ else v

/-- Embeds `Sentence.mark_safe`: if the cell is present, remove it (count
unchanged); otherwise do nothing. -/
def sentMarkSafe (v : SentVal) (c : Cell) : SentVal :=
  if c ∈ v.cells then ⟨v.cells.erase c, v.count⟩ else v

/-- State of a `MinesweeperAI` instance.  `store` is the heap of all
`Sentence` objects ever created (index = object identity); `knowledge` is
`self.knowledge`, a list of object ids. -/
structure AIState where
  height : Nat
  width : Nat
  store : List SentVal
  movesMade : Finset Cell
  mines : Finset Cell
  safes : Finset Cell
  knowledge : List Nat
deriving DecidableEq

/-- Embeds `MinesweeperAI.__init__` (fresh AI, empty knowledge). -/
def initAI (h w : Nat) : AIState :=
  ⟨h, w, [], ∅, ∅, ∅, []⟩

/-- Dereference a sentence object id in the heap. -/
def getVal (store : List SentVal) (id : Nat) : SentVal :=
  store.getD id ⟨∅, 0⟩

/-- Apply `f` to exactly the sentence objects whose ids occur in `ks`
(the others are untouched); `i` is the id of the head of the list. -/
def mapOnIds (ks : List Nat) (f : SentVal → SentVal) :
    List SentVal → Nat → List SentVal
  | [], _ => []
  | v :: rest, i =>
      (if i ∈ ks then f v else v) :: mapOnIds ks f rest (i + 1)

/-- Embeds `MinesweeperAI.mark_mine`: add the cell to `self.mines` and apply
`Sentence.mark_mine` to every sentence in `self.knowledge` (and only
those: sentences not in `self.knowledge` are not updated). -/
def aiMarkMine (σ : AIState) (c : Cell) : AIState :=
  { σ with
    mines := insert c σ.mines
    store := mapOnIds σ.knowledge (sentMarkMine · c) σ.store 0 }

/-- Embeds `MinesweeperAI.mark_safe`: add the cell to `self.safes` and apply
`Sentence.mark_safe` to every sentence in `self.knowledge`. -/
def aiMarkSafe (σ : AIState) (c : Cell) : AIState :=
  { σ with
    safes := insert c σ.safes
    store := mapOnIds σ.knowledge (sentMarkSafe · c) σ.store 0 }

/-- All cells of an `height × width` board. -/
def boardCells (h w : Nat) : Finset Cell :=
  Finset.range h ×ˢ Finset.range w

/-- The in-bounds cells at Chebyshev distance exactly 1 from `c`: the
double loop of `add_knowledge` over `range(i-1, i+2) × range(j-1, j+2)`
restricted to the board and excluding `c` itself. -/
def neighborsOf (h w : Nat) (c : Cell) : Finset Cell :=
  (boardCells h w).filter fun p =>
    p ≠ c ∧ p.1 ≤ c.1 + 1 ∧ c.1 ≤ p.1 + 1 ∧ p.2 ≤ c.2 + 1 ∧ c.2 ≤ p.2 + 1

/-- Embeds `Minesweeper.nearby_mines`: number of mines within one row and column
of `cell`, the cell itself excluded (`mines` is the set of mine cells of
the board). -/
def nearbyMines (h w : Nat) (mines : Finset Cell) (c : Cell) : Nat :=
  (neighborsOf h w c ∩ mines).card

/-- Lines 196–237 of `add_knowledge`: record the move, mark the observed
cell safe, build the neighbour sentence (known-safe neighbours dropped,
known-mine neighbours dropped with a count decrement) and append it to the
knowledge base — unconditionally, whether or not its cell set is empty. -/
def addSentencePhase (σ : AIState) (cell : Cell) (count : Int) : AIState :=
  let σm := { σ with movesMade := insert cell σ.movesMade }
  let σs := aiMarkSafe σm cell
  let nbrs := neighborsOf σ.height σ.width cell
  let repeatN := nbrs.filter fun n => n ∈ σs.safes ∨ n ∈ σs.mines
  let newCount :=
    count - ((nbrs.filter fun n => n ∉ σs.safes ∧ n ∈ σs.mines).card : Int)
  let newCells := nbrs \ repeatN
  { σs with
    store := σs.store ++ [⟨newCells, newCount⟩]
    knowledge := σs.knowledge ++ [σs.store.length] }

/-- Step (a) of the closure loop (lines 253–274): scan the sentences of
`l` in order, collecting the cells of count-0 sentences as new safes, the
cells of full-count sentences as new mines, and the resolved sentences
themselves for removal. -/
def resolveStep (store : List SentVal)
    (acc : List Cell × List Cell × List Nat) (id : Nat) :
    List Cell × List Cell × List Nat :=
  let v := getVal store id
  if v.count = 0 then
    (acc.1 ++ cellsToList v.cells, acc.2.1, acc.2.2 ++ [id])
  else if v.count = (v.cells.card : Int) then
    (acc.1, acc.2.1 ++ cellsToList v.cells, acc.2.2 ++ [id])
  else acc

def scanResolve (store : List SentVal) (l : List Nat) :
    List Cell × List Cell × List Nat :=
  l.foldl (resolveStep store) ([], [], [])

/-- Lines 276–282: `mark_safe` every newly-found safe cell, then
`mark_mine` every newly-found mine cell. -/
def applyMarks (σ : AIState) (safeL mineL : List Cell) : AIState :=
  mineL.foldl aiMarkMine (safeL.foldl aiMarkSafe σ)

/-- Python `list.remove(x)`: drop the first element of `l` whose current
value equals `target`; `ValueError` when there is none. -/
def removeFirstVal (store : List SentVal) (l : List Nat) (target : SentVal) :
    Except String (List Nat) :=
  match l with
  | [] => .error "ValueError"
  | id :: rest =>
      if getVal store id = target then .ok rest
      else (removeFirstVal store rest target).map (id :: ·)

/-- Sequential `list.remove` of the (current values of the) objects whose
ids are listed in `targets`. -/
def removeAll (store : List SentVal) (l : List Nat) (targets : List Nat) :
    Except String (List Nat) :=
  targets.foldl
    (fun acc t => acc.bind fun l' => removeFirstVal store l' (getVal store t))
    (.ok l)

/-- Step (c) scan (lines 292–306): for every `sentence_orig` in `orig` and
`sentence_modif` in `modif` with `modif.cells` a strict subset of
`orig.cells`, schedule `orig` for removal and build the derived sentence
`⟨orig.cells − modif.cells, orig.count − modif.count⟩`. -/
def subsumeStep (store : List SentVal) (idA : Nat)
    (acc : List Nat × List SentVal) (idB : Nat) : List Nat × List SentVal :=
  let a := getVal store idA
  let b := getVal store idB
  if b.cells ⊆ a.cells ∧ b.cells ≠ a.cells then
    (acc.1 ++ [idA], acc.2 ++ [⟨a.cells \ b.cells, a.count - b.count⟩])
  else acc

def scanSubsume (store : List SentVal) (orig modif : List Nat) :
    List Nat × List SentVal :=
  orig.foldl (fun acc idA => modif.foldl (subsumeStep store idA) acc) ([], [])

/-- Allocate the sentences of `vs` as fresh objects and append their ids to
`l` (lines 312–314). -/
def pushNew (σ : AIState) (l : List Nat) (vs : List SentVal) :
    AIState × List Nat :=
  vs.foldl
    (fun acc v =>
      ({ acc.1 with store := acc.1.store ++ [v] }, acc.2 ++ [acc.1.store.length]))
    (σ, l)

/-- One execution of the loop body (lines 244–314) given the current
`knowledge_original` and `knowledge_modified` id-lists.  When
`aliased = true` the two Python names refer to the same list object, so the
`orig` role is played by the current (post-removal) working list.  Returns
the new state, the new working list, and whether the final comparison
`knowledge_modified == knowledge_original` judged the sets different. -/
def loopBody (σ : AIState) (orig modif : List Nat) (aliased : Bool) :
    Except String (AIState × List Nat × Bool) :=
  let sr := scanResolve σ.store (if aliased then modif else orig)
  let σ₁ := applyMarks σ sr.1 sr.2.1
  match removeAll σ₁.store modif sr.2.2 with
  | .error e => .error e
  | .ok modif₁ =>
      let sub := scanSubsume σ₁.store (if aliased then modif₁ else orig) modif₁
      match removeAll σ₁.store modif₁ sub.1 with
      | .error e => .error e
      | .ok modif₂ =>
          let pn := pushNew σ₁ modif₂ sub.2
          .ok (pn.1, pn.2,
            decide ((if aliased then pn.2 else orig).map (getVal pn.1.store) =
              pn.2.map (getVal pn.1.store)))

/-- The `while True` loop with fuel.  In the first iteration
`knowledge_original` and `knowledge_modified` are two distinct list objects
with the same contents; from the moment `knowledge_original =
knowledge_modified` executes they are the same object (`aliased`). -/
def loopRun : Nat → AIState → List Nat → List Nat → Bool →
    Except String (AIState × List Nat)
  | 0, _, _, _, _ => .error "fuel"
  | n + 1, σ, orig, modif, aliased =>
      match loopBody σ orig modif aliased with
      | .error e => .error e
      | .ok (σ', modif', unchanged) =>
          if unchanged then .ok (σ', modif')
          else loopRun n σ' modif' modif' true

/-- Embeds `MinesweeperAI.add_knowledge`, loop fuel made explicit. -/
def addKnowledgeFuel (fuel : Nat) (σ : AIState) (cell : Cell) (count : Int) :
    Except String AIState :=
  let σ₂ := addSentencePhase σ cell count
  match loopRun fuel σ₂ σ₂.knowledge σ₂.knowledge false with
  | .error e => .error e
  | .ok (σ₃, final) => .ok { σ₃ with knowledge := final }

/-- Embeds `MinesweeperAI.add_knowledge`.  Fuel 2 is exact: the aliasing of
`knowledge_original` and `knowledge_modified` after the first changed
iteration makes the second iteration's comparison trivially true (proved
below as `loopRun_fuel_two_suffices`). -/
def addKnowledge (σ : AIState) (cell : Cell) (count : Int) :
    Except String AIState :=
  addKnowledgeFuel 2 σ cell count

/-- Run a sequence of `add_knowledge` observations. -/
def runObs (σ : AIState) : List (Cell × Int) → Except String AIState
  | [] => .ok σ
  | (c, n) :: rest =>
      match addKnowledge σ c n with
      | .error e => .error e
      | .ok σ' => runObs σ' rest

/-- Embeds `MinesweeperAI.make_safe_move`: it returns `None` exactly when no known
safe cell is unplayed; otherwise it returns a random element of this set
(the set of possible results is embedded, the random choice is not). -/
def safeMoveChoices (σ : AIState) : Finset Cell :=
  σ.safes \ σ.movesMade

/-- Embeds `MinesweeperAI.make_random_move`'s `None` condition (checked before
sampling): every board cell is accounted for by `len(mines) + len(safes)`. -/
def randomMoveDone (σ : AIState) : Bool :=
  σ.mines.card + σ.safes.card = σ.height * σ.width

/-- The cells `make_random_move` may return: not yet played, not a known
mine. -/
def randomMoveChoices (σ : AIState) : Finset Cell :=
  (boardCells σ.height σ.width) \ (σ.movesMade ∪ σ.mines)

/-! ## Infrastructure lemmas -/

instance {ε α : Type} [DecidableEq ε] [DecidableEq α] :
    DecidableEq (Except ε α)
  | .error e, .error e' =>
      if h : e = e' then .isTrue (by rw [h]) else .isFalse (by simp [h])
  | .error _, .ok _ => .isFalse (by simp)
  | .ok _, .error _ => .isFalse (by simp)
  | .ok a, .ok b =>
      if h : a = b then .isTrue (by rw [h]) else .isFalse (by simp [h])

theorem mapOnIds_length (ks : List Nat) (f : SentVal → SentVal) :
    ∀ (s : List SentVal) (i : Nat), (mapOnIds ks f s i).length = s.length := by
  intro s
  induction s with
  | nil => intro i; rfl
  | cons v rest ih => intro i; simp [mapOnIds, ih]

theorem mapOnIds_getD (ks : List Nat) (f : SentVal → SentVal) :
    ∀ (s : List SentVal) (i n : Nat),
      (mapOnIds ks f s i).getD n ⟨∅, 0⟩ =
        if n < s.length ∧ (i + n) ∈ ks then f (s.getD n ⟨∅, 0⟩)
        else s.getD n ⟨∅, 0⟩ := by
  intro s
  induction s with
  | nil =>
      intro i n
      simp [mapOnIds]
  | cons v rest ih =>
      intro i n
      cases n with
      | zero =>
          simp only [mapOnIds, List.getD_cons_zero, List.length_cons,
            Nat.add_zero]
          by_cases h : i ∈ ks <;> simp [h, Nat.succ_pos]
      | succ n =>
          have harith : i + 1 + n = i + (n + 1) := by omega
          simp only [mapOnIds, List.getD_cons_succ, List.length_cons]
          rw [ih (i + 1) n, harith]
          simp [Nat.succ_lt_succ_iff]

theorem getVal_mapOnIds (ks : List Nat) (f : SentVal → SentVal)
    (s : List SentVal) (n : Nat) :
    getVal (mapOnIds ks f s 0) n =
      if n < s.length ∧ n ∈ ks then f (getVal s n) else getVal s n := by
  show (mapOnIds ks f s 0).getD n ⟨∅, 0⟩ = _
  rw [mapOnIds_getD ks f s 0 n]
  simp [getVal, Nat.zero_add]

theorem getVal_append (s : List SentVal) (v : SentVal) :
    ∀ n, getVal (s ++ [v]) n = if n = s.length then v else getVal s n := by
  induction s with
  | nil =>
      intro n
      cases n <;> simp [getVal]
  | cons w rest ih =>
      intro n
      cases n with
      | zero => simp [getVal]
      | succ n =>
          show getVal (rest ++ [v]) n = _
          rw [ih n]
          simp [getVal, Nat.succ_eq_add_one]

theorem sentMarkSafe_count (v : SentVal) (c : Cell) :
    (sentMarkSafe v c).count = v.count := by
  unfold sentMarkSafe
  split <;> rfl

/-! ## C6: resolution correctness of `known_mines` / `known_safes` -/

/-- C6.  For every sentence: if `count` equals the number of cells then
`known_mines()` returns exactly the cell set, otherwise the empty set; and
if `count = 0` then `known_safes()` returns exactly the cell set, otherwise
the empty set. -/
theorem knownMines_knownSafes_spec (v : SentVal) :
    ((v.count = (v.cells.card : Int) → knownMines v = v.cells) ∧
     (v.count ≠ (v.cells.card : Int) → knownMines v = ∅)) ∧
    ((v.count = 0 → knownSafes v = v.cells) ∧
     (v.count ≠ 0 → knownSafes v = ∅)) := by
  refine ⟨⟨fun h => ?_, fun h => ?_⟩, ⟨fun h => ?_, fun h => ?_⟩⟩
  · simp [knownMines, h.symm]
  · exact if_neg fun hc => h hc.symm
  · simp [knownSafes, h]
  · simp [knownSafes, h]

/-- Witness for C6 at concrete sentences. -/
theorem knownMines_knownSafes_spec_witness :
    knownMines ⟨{((0 : Nat), (0 : Nat))}, 1⟩ = {((0 : Nat), (0 : Nat))} ∧
    knownMines ⟨{((0 : Nat), (0 : Nat))}, 0⟩ = ∅ ∧
    knownSafes ⟨{((0 : Nat), (0 : Nat))}, 0⟩ = {((0 : Nat), (0 : Nat))} ∧
    knownSafes ⟨{((0 : Nat), (0 : Nat))}, 1⟩ = ∅ :=
  ⟨(knownMines_knownSafes_spec _).1.1 (by decide),
   (knownMines_knownSafes_spec _).1.2 (by decide),
   (knownMines_knownSafes_spec _).2.1 (by decide),
   (knownMines_knownSafes_spec _).2.2 (by decide)⟩

/-! ## C9: idempotence of sentence reduction -/

/-- C9.  `Sentence.mark_mine` and `Sentence.mark_safe` are idempotent, and
applying either with a cell absent from the sentence's cell set is a no-op
(cells and count unchanged, no error). -/
theorem sentence_reduction_idempotent (v : SentVal) (c : Cell) :
    sentMarkMine (sentMarkMine v c) c = sentMarkMine v c ∧
    sentMarkSafe (sentMarkSafe v c) c = sentMarkSafe v c ∧
    (c ∉ v.cells → sentMarkMine v c = v ∧ sentMarkSafe v c = v) := by
  by_cases h : c ∈ v.cells
  · refine ⟨?_, ?_, fun hc => absurd h hc⟩
    · have : sentMarkMine v c = ⟨v.cells.erase c, v.count - 1⟩ := if_pos h
      rw [this]
      exact if_neg (Finset.not_mem_erase c v.cells)
    · have : sentMarkSafe v c = ⟨v.cells.erase c, v.count⟩ := if_pos h
      rw [this]
      exact if_neg (Finset.not_mem_erase c v.cells)
  · have h1 : sentMarkMine v c = v := if_neg h
    have h2 : sentMarkSafe v c = v := if_neg h
    exact ⟨by rw [h1, h1], by rw [h2, h2], fun _ => ⟨h1, h2⟩⟩

/-- Witness for C9 at a concrete sentence and absent cell. -/
theorem sentence_reduction_idempotent_witness :
    sentMarkMine ⟨{((0 : Nat), (0 : Nat))}, 1⟩ (1, 1) =
      ⟨{((0 : Nat), (0 : Nat))}, 1⟩ ∧
    sentMarkSafe ⟨{((0 : Nat), (0 : Nat))}, 1⟩ (1, 1) =
      ⟨{((0 : Nat), (0 : Nat))}, 1⟩ :=
  (sentence_reduction_idempotent ⟨{((0 : Nat), (0 : Nat))}, 1⟩ (1, 1)).2.2
    (by decide)

/-! ## C10: frame conditions of the AI's `mark_mine` / `mark_safe` -/

/-- C10.  `MinesweeperAI.mark_mine(cell)` adds the cell to `self.mines` and
touches only the sentence store, leaving `safes`, `moves_made` (and the
dimensions and the `knowledge` id-list) unchanged; `mark_safe(cell)` adds
the cell to `self.safes`, leaves `mines` and `moves_made` unchanged and
preserves every sentence's count. -/
theorem ai_mark_frame (σ : AIState) (c : Cell) :
    ((aiMarkMine σ c).safes = σ.safes ∧
     (aiMarkMine σ c).movesMade = σ.movesMade ∧
     (aiMarkMine σ c).mines = insert c σ.mines ∧
     (aiMarkMine σ c).knowledge = σ.knowledge ∧
     (aiMarkMine σ c).height = σ.height ∧
     (aiMarkMine σ c).width = σ.width) ∧
    ((aiMarkSafe σ c).mines = σ.mines ∧
     (aiMarkSafe σ c).movesMade = σ.movesMade ∧
     (aiMarkSafe σ c).safes = insert c σ.safes ∧
     (aiMarkSafe σ c).knowledge = σ.knowledge ∧
     (aiMarkSafe σ c).height = σ.height ∧
     (aiMarkSafe σ c).width = σ.width ∧
     (∀ id, (getVal (aiMarkSafe σ c).store id).count =
       (getVal σ.store id).count)) := by
  refine ⟨⟨rfl, rfl, rfl, rfl, rfl, rfl⟩, rfl, rfl, rfl, rfl, rfl, rfl, ?_⟩
  intro id
  show (getVal (mapOnIds σ.knowledge (sentMarkSafe · c) σ.store 0) id).count = _
  rw [getVal_mapOnIds]
  split
  · exact sentMarkSafe_count _ c
  · rfl

/-! ## C5: construction of the observation sentence -/

theorem mem_neighborsOf_ne {h w : Nat} {c p : Cell}
    (hp : p ∈ neighborsOf h w c) : p ≠ c :=
  (Finset.mem_filter.mp hp).2.1

/-- C5 counterexample.  On a fresh 1×1 AI, `add_knowledge((0,0), 0)` has no
neighbours at all, yet the new sentence is still appended to the knowledge
base: the list of sentence ids goes from `[]` to `[0]` and the appended
object is the empty-cell sentence `⟨∅, 0⟩`.  The code has no emptiness
check before `self.knowledge.append(...)` (line 237), contradicting the
claim that an empty-cell-set sentence is skipped. -/
theorem addSentencePhase_appends_empty_sentence :
    (addSentencePhase (initAI 1 1) (0, 0) 0).knowledge = [0] ∧
    getVal (addSentencePhase (initAI 1 1) (0, 0) 0).store 0 = ⟨∅, 0⟩ := by
  decide

/-- C5 (amended).  `add_knowledge(cell, count)` builds the new sentence
from exactly the in-bounds Chebyshev-distance-1 neighbours of `cell`
(excluding `cell`), dropping already-confirmed-safe neighbours with no
count change and already-confirmed-mine neighbours with a count decrement,
and appends it to the knowledge base *unconditionally* — also when the
resulting cell set is empty.  (Stated for states whose confirmed sets are
disjoint and do not already contain the observed cell, which is how the
claim reads; the observed cell is also recorded as a move and marked
safe.) -/
theorem addSentencePhase_spec (σ : AIState) (cell : Cell) (count : Int)
    (hm : cell ∉ σ.mines) (hd : ∀ x ∈ σ.safes, x ∉ σ.mines) :
    (addSentencePhase σ cell count).knowledge =
      σ.knowledge ++ [σ.store.length] ∧
    getVal (addSentencePhase σ cell count).store σ.store.length =
      ⟨neighborsOf σ.height σ.width cell \ (σ.safes ∪ σ.mines),
       count - ((neighborsOf σ.height σ.width cell ∩ σ.mines).card : Int)⟩ ∧
    (addSentencePhase σ cell count).movesMade = insert cell σ.movesMade ∧
    (addSentencePhase σ cell count).safes = insert cell σ.safes := by
  have hlen : (mapOnIds σ.knowledge (sentMarkSafe · cell) σ.store 0).length =
      σ.store.length := mapOnIds_length _ _ _ _
  refine ⟨?_, ?_, rfl, rfl⟩
  · show σ.knowledge ++
      [(mapOnIds σ.knowledge (sentMarkSafe · cell) σ.store 0).length] = _
    rw [hlen]
  · show getVal
      (mapOnIds σ.knowledge (sentMarkSafe · cell) σ.store 0 ++ [_])
      σ.store.length = _
    rw [getVal_append, hlen, if_pos rfl]
    have hcells :
        neighborsOf σ.height σ.width cell \
          ((neighborsOf σ.height σ.width cell).filter fun n =>
            n ∈ insert cell σ.safes ∨ n ∈ σ.mines) =
        neighborsOf σ.height σ.width cell \ (σ.safes ∪ σ.mines) := by
      ext x
      simp only [Finset.mem_sdiff, Finset.mem_filter, Finset.mem_union,
        Finset.mem_insert]
      constructor
      · rintro ⟨hx, hno⟩
        exact ⟨hx, fun hor => hno ⟨hx, by tauto⟩⟩
      · rintro ⟨hx, hno⟩
        refine ⟨hx, fun hyes => ?_⟩
        rcases hyes.2 with hin | hmn
        · rcases hin with rfl | hsafe
          · exact (mem_neighborsOf_ne hx) rfl
          · exact hno (Or.inl hsafe)
        · exact hno (Or.inr hmn)
    have hfilter :
        ((neighborsOf σ.height σ.width cell).filter fun n =>
          n ∉ insert cell σ.safes ∧ n ∈ σ.mines) =
        neighborsOf σ.height σ.width cell ∩ σ.mines := by
      ext x
      simp only [Finset.mem_filter, Finset.mem_inter, Finset.mem_insert]
      constructor
      · rintro ⟨hx, _, hmn⟩
        exact ⟨hx, hmn⟩
      · rintro ⟨hx, hmn⟩
        refine ⟨hx, fun hor => ?_, hmn⟩
        rcases hor with rfl | hsafe
        · exact hm hmn
        · exact hd x hsafe hmn
    simp only [addSentencePhase, aiMarkSafe]
    rw [hcells, hfilter]

/-- Witness for C5's amended theorem at a concrete fresh 2×2 AI. -/
theorem addSentencePhase_spec_witness :
    (addSentencePhase (initAI 2 2) (0, 0) 1).knowledge =
      (initAI 2 2).knowledge ++ [(initAI 2 2).store.length] ∧
    getVal (addSentencePhase (initAI 2 2) (0, 0) 1).store
        (initAI 2 2).store.length =
      ⟨neighborsOf (initAI 2 2).height (initAI 2 2).width (0, 0) \
        ((initAI 2 2).safes ∪ (initAI 2 2).mines),
       1 - (((neighborsOf (initAI 2 2).height (initAI 2 2).width (0, 0) ∩
         (initAI 2 2).mines).card : Nat) : Int)⟩ ∧
    (addSentencePhase (initAI 2 2) (0, 0) 1).movesMade =
      insert (0, 0) (initAI 2 2).movesMade ∧
    (addSentencePhase (initAI 2 2) (0, 0) 1).safes =
      insert (0, 0) (initAI 2 2).safes :=
  addSentencePhase_spec (initAI 2 2) (0, 0) 1 (by decide)
    (by decide)

/-! ## C1: the subsumption rule of the closure -/

theorem subsumeStep_mono (store : List SentVal) (idA : Nat)
    (acc : List Nat × List SentVal) (idB : Nat) :
    (∀ x ∈ acc.1, x ∈ (subsumeStep store idA acc idB).1) ∧
    (∀ v ∈ acc.2, v ∈ (subsumeStep store idA acc idB).2) := by
  simp only [subsumeStep]
  split
  · exact ⟨fun x hx => List.mem_append_left _ hx,
      fun v hv => List.mem_append_left _ hv⟩
  · exact ⟨fun x hx => hx, fun v hv => hv⟩

theorem foldl_subsume_mono (store : List SentVal) (idA : Nat) :
    ∀ (modif : List Nat) (acc : List Nat × List SentVal),
      (∀ x ∈ acc.1, x ∈ (modif.foldl (subsumeStep store idA) acc).1) ∧
      (∀ v ∈ acc.2, v ∈ (modif.foldl (subsumeStep store idA) acc).2) := by
  intro modif
  induction modif with
  | nil => exact fun acc => ⟨fun x hx => hx, fun v hv => hv⟩
  | cons b rest ih =>
      intro acc
      refine ⟨fun x hx => ?_, fun v hv => ?_⟩
      · exact (ih (subsumeStep store idA acc b)).1 x
          ((subsumeStep_mono store idA acc b).1 x hx)
      · exact (ih (subsumeStep store idA acc b)).2 v
          ((subsumeStep_mono store idA acc b).2 v hv)

theorem foldl_subsume_adds (store : List SentVal) (idA idB : Nat)
    (hcond : (getVal store idB).cells ⊆ (getVal store idA).cells ∧
      (getVal store idB).cells ≠ (getVal store idA).cells) :
    ∀ (modif : List Nat), idB ∈ modif →
      ∀ acc, idA ∈ (modif.foldl (subsumeStep store idA) acc).1 ∧
        (⟨(getVal store idA).cells \ (getVal store idB).cells,
          (getVal store idA).count - (getVal store idB).count⟩ : SentVal) ∈
          (modif.foldl (subsumeStep store idA) acc).2 := by
  intro modif
  induction modif with
  | nil => intro hB; exact absurd hB (List.not_mem_nil idB)
  | cons b rest ih =>
      intro hB acc
      rcases List.mem_cons.mp hB with rfl | hrest
      · have hstep : subsumeStep store idA acc idB =
            (acc.1 ++ [idA],
             acc.2 ++ [⟨(getVal store idA).cells \ (getVal store idB).cells,
               (getVal store idA).count - (getVal store idB).count⟩]) := by
          unfold subsumeStep
          rw [if_pos hcond]
        refine ⟨?_, ?_⟩
        · refine (foldl_subsume_mono store idA rest _).1 idA ?_
          rw [hstep]
          exact List.mem_append_right _ (List.mem_singleton.mpr rfl)
        · refine (foldl_subsume_mono store idA rest _).2 _ ?_
          rw [hstep]
          exact List.mem_append_right _ (List.mem_singleton.mpr rfl)
      · exact ih hrest (subsumeStep store idA acc b)

theorem foldl_outer_mono (store : List SentVal) (modif : List Nat) :
    ∀ (orig : List Nat) (acc : List Nat × List SentVal),
      (∀ x ∈ acc.1,
        x ∈ (orig.foldl
          (fun acc idA => modif.foldl (subsumeStep store idA) acc) acc).1) ∧
      (∀ v ∈ acc.2,
        v ∈ (orig.foldl
          (fun acc idA => modif.foldl (subsumeStep store idA) acc) acc).2) := by
  intro orig
  induction orig with
  | nil => exact fun acc => ⟨fun x hx => hx, fun v hv => hv⟩
  | cons a rest ih =>
      intro acc
      refine ⟨fun x hx => ?_, fun v hv => ?_⟩
      · exact (ih _).1 x ((foldl_subsume_mono store a modif acc).1 x hx)
      · exact (ih _).2 v ((foldl_subsume_mono store a modif acc).2 v hv)

theorem scanSubsume_adds (store : List SentVal) (orig modif : List Nat)
    (idA idB : Nat) (hA : idA ∈ orig) (hB : idB ∈ modif)
    (hcond : (getVal store idB).cells ⊆ (getVal store idA).cells ∧
      (getVal store idB).cells ≠ (getVal store idA).cells) :
    idA ∈ (scanSubsume store orig modif).1 ∧
    (⟨(getVal store idA).cells \ (getVal store idB).cells,
      (getVal store idA).count - (getVal store idB).count⟩ : SentVal) ∈
      (scanSubsume store orig modif).2 := by
  unfold scanSubsume
  have aux : ∀ (l : List Nat) (acc : List Nat × List SentVal), idA ∈ l →
      idA ∈ (l.foldl
        (fun acc idA => modif.foldl (subsumeStep store idA) acc) acc).1 ∧
      (⟨(getVal store idA).cells \ (getVal store idB).cells,
        (getVal store idA).count - (getVal store idB).count⟩ : SentVal) ∈
        (l.foldl
          (fun acc idA => modif.foldl (subsumeStep store idA) acc) acc).2 := by
    intro l
    induction l with
    | nil => intro acc h; exact absurd h (List.not_mem_nil idA)
    | cons a rest ih =>
        intro acc h
        rcases List.mem_cons.mp h with rfl | hrest
        · have hin := foldl_subsume_adds store idA idB hcond modif hB acc
          exact ⟨(foldl_outer_mono store modif rest _).1 idA hin.1,
            (foldl_outer_mono store modif rest _).2 _ hin.2⟩
        · exact ih _ hrest
  exact aux orig ([], []) hA

/-- C1.  First conjunct (the rule in general): whenever the subsumption
scan of the closure (lines 292–306) sees `sentence_orig` (id `idA` in its
`knowledge_original` operand) and `sentence_modif` (id `idB` in its
`knowledge_modified` operand) whose cell set is a strict subset of
`sentence_orig`'s, it schedules `sentence_orig` for removal and builds the
derived sentence `⟨A.cells − B.cells, A.count − B.count⟩`, which the loop
body then removes from / appends to the working set.  Remaining conjuncts
(the spec's example, run end-to-end on a real 3×3 board with a mine at
(1,1) and true counts): before the closure of the third call the knowledge
base holds `{(0,1),(1,0),(1,1)} = 1` (the `{A,B,C} = 1`) and
`{(1,0),(1,1)} = 1` (the `{A,B} = 1`), and after that call the derived
`{(0,1)} = 0` has marked `(0,1)` (the `C`) safe. -/
theorem subsumption_derivation (store : List SentVal) (orig modif : List Nat)
    (idA idB : Nat) (hA : idA ∈ orig) (hB : idB ∈ modif)
    (hsub : (getVal store idB).cells ⊆ (getVal store idA).cells)
    (hne : (getVal store idB).cells ≠ (getVal store idA).cells) :
    (idA ∈ (scanSubsume store orig modif).1 ∧
     (⟨(getVal store idA).cells \ (getVal store idB).cells,
       (getVal store idA).count - (getVal store idB).count⟩ : SentVal) ∈
       (scanSubsume store orig modif).2) ∧
    (match runObs (initAI 3 3) [((2,1),1), ((0,0),1)] with
     | .ok σ =>
         let σ' := addSentencePhase σ (2,0) 1
         decide ((⟨{(0,1),(1,0),(1,1)}, 1⟩ : SentVal) ∈
             σ'.knowledge.map (getVal σ'.store)) &&
         decide ((⟨{(1,0),(1,1)}, 1⟩ : SentVal) ∈
             σ'.knowledge.map (getVal σ'.store))
     | .error _ => false) = true ∧
    (match runObs (initAI 3 3) [((2,1),1), ((0,0),1), ((2,0),1)] with
     | .ok σ => decide ((0,1) ∈ σ.safes)
     | .error _ => false) = true ∧
    nearbyMines 3 3 {(1,1)} (2,1) = 1 ∧
    nearbyMines 3 3 {(1,1)} (0,0) = 1 ∧
    nearbyMines 3 3 {(1,1)} (2,0) = 1 := by
  refine ⟨scanSubsume_adds store orig modif idA idB hA hB ⟨hsub, hne⟩,
    by decide, by decide, by decide, by decide, by decide⟩

/-- Witness for C1 at a concrete store and scan operands. -/
theorem subsumption_derivation_witness :
    (0 ∈ (scanSubsume [⟨{(0,0),(0,1)}, 1⟩, ⟨{(0,0)}, 1⟩] [0, 1] [0, 1]).1 ∧
     (⟨{(0,1)}, 0⟩ : SentVal) ∈
       (scanSubsume [⟨{(0,0),(0,1)}, 1⟩, ⟨{(0,0)}, 1⟩] [0, 1] [0, 1]).2) ∧
    (match runObs (initAI 3 3) [((2,1),1), ((0,0),1)] with
     | .ok σ =>
         let σ' := addSentencePhase σ (2,0) 1
         decide ((⟨{(0,1),(1,0),(1,1)}, 1⟩ : SentVal) ∈
             σ'.knowledge.map (getVal σ'.store)) &&
         decide ((⟨{(1,0),(1,1)}, 1⟩ : SentVal) ∈
             σ'.knowledge.map (getVal σ'.store))
     | .error _ => false) = true ∧
    (match runObs (initAI 3 3) [((2,1),1), ((0,0),1), ((2,0),1)] with
     | .ok σ => decide ((0,1) ∈ σ.safes)
     | .error _ => false) = true ∧
    nearbyMines 3 3 {(1,1)} (2,1) = 1 ∧
    nearbyMines 3 3 {(1,1)} (0,0) = 1 ∧
    nearbyMines 3 3 {(1,1)} (2,0) = 1 := by
  have h := subsumption_derivation [⟨{(0,0),(0,1)}, 1⟩, ⟨{(0,0)}, 1⟩]
    [0, 1] [0, 1] 0 1 (by decide) (by decide) (by decide) (by decide)
  refine ⟨⟨h.1.1, ?_⟩, h.2.1, h.2.2.1, h.2.2.2.1, h.2.2.2.2.1, h.2.2.2.2.2⟩
  have h2 := h.1.2
  convert h2 using 2

/-! ## C3: totality — refuted by a realistic game -/

/-- C3 (bug witness).  On a 3×3 board with a single mine at `(2,2)`,
observing the safe cells `(2,1)`, `(1,2)`, `(1,1)` with their true
neighbour counts (all `1`, as the last three conjuncts check against
`nearby_mines`) makes `add_knowledge` raise `ValueError`: the third call's
new sentence `{(0,0),(0,1),(0,2),(1,0),(2,0),(2,2)} = 1` strictly contains
both reduced earlier sentences, so the subsumption scan appends it to
`old_sentences` twice and the second `knowledge_modified.remove(old)`
(line 310) finds no equal element. -/
theorem add_knowledge_raises_value_error :
    runObs (initAI 3 3) [((2,1),1), ((1,2),1), ((1,1),1)] =
      .error "ValueError" ∧
    nearbyMines 3 3 {(2,2)} (2,1) = 1 ∧
    nearbyMines 3 3 {(2,2)} (1,2) = 1 ∧
    nearbyMines 3 3 {(2,2)} (1,1) = 1 ∧
    ((2,1) ∉ ({(2,2)} : Finset Cell) ∧ (1,2) ∉ ({(2,2)} : Finset Cell) ∧
     (1,1) ∉ ({(2,2)} : Finset Cell)) := by
  refine ⟨by decide, by decide, by decide, by decide, by decide⟩

/-! ## C2: confirmed cells purged from all sentences — refuted -/

/-- C2 (bug witness).  On a 3×3 board with mines at `(2,1)` and `(2,2)`,
observing the safe cells `(2,0)`, `(1,2)`, `(1,0)` with their true counts
`1`, `2`, `1` leaves the AI, after the last `add_knowledge` returns, with
the sentence `{(0,1),(0,2),(2,2)} = 1` still in `self.knowledge` although
`(0,1)` is in `self.safes`: the sentence was derived by the subsumption
step, and `mark_safe` iterates only the stale `self.knowledge` list, never
reducing sentences that exist only in `knowledge_modified`. -/
theorem confirmed_cell_remains_in_sentence :
    (match runObs (initAI 3 3) [((2,0),1), ((1,2),2), ((1,0),1)] with
     | .ok σ =>
         decide ((0,1) ∈ σ.safes) &&
         σ.knowledge.any (fun id => decide ((0,1) ∈ (getVal σ.store id).cells))
     | .error _ => false) = true ∧
    nearbyMines 3 3 {(2,1),(2,2)} (2,0) = 1 ∧
    nearbyMines 3 3 {(2,1),(2,2)} (1,2) = 2 ∧
    nearbyMines 3 3 {(2,1),(2,2)} (1,0) = 1 ∧
    ((2,0) ∉ ({(2,1),(2,2)} : Finset Cell) ∧
     (1,2) ∉ ({(2,1),(2,2)} : Finset Cell) ∧
     (1,0) ∉ ({(2,1),(2,2)} : Finset Cell)) := by
  refine ⟨by decide, by decide, by decide, by decide, by decide⟩

/-! ## C7: disjointness of confirmed mines and safes -/

/-- C7 counterexample.  The claim quantifies over *every* call sequence
with in-bounds coordinates.  On a fresh 1×3 AI, `add_knowledge((0,1), 2)`
resolves `{(0,0),(0,2)} = 2` and confirms both cells as mines; a following
`add_knowledge((0,0), 0)` unconditionally marks the observed cell safe, so
`(0,0)` ends up in both `self.mines` and `self.safes`.  (Such a sequence
violates the observe contract — the second call reveals a known mine — but
nothing in the claim excludes it.) -/
theorem disjointness_violated_without_contract :
    (match runObs (initAI 1 3) [((0,1),2), ((0,0),0)] with
     | .ok σ => decide ((0,0) ∈ σ.mines ∧ (0,0) ∈ σ.safes)
     | .error _ => false) = true := by
  decide


/-! ## C4: termination of the closure loop -/

theorem removeFirstVal_error (store : List SentVal) :
    ∀ (l : List Nat) (t : SentVal) (e : String),
      removeFirstVal store l t = .error e → e = "ValueError" := by
  intro l
  induction l with
  | nil =>
      intro t e h
      simp only [removeFirstVal] at h
      injection h with h'
      exact h'.symm
  | cons id rest ih =>
      intro t e h
      simp only [removeFirstVal] at h
      split at h
      · exact absurd h (by simp)
      · cases hr : removeFirstVal store rest t with
        | error e' =>
            rw [hr] at h
            simp only [Except.map] at h
            injection h with h'
            exact h' ▸ ih t e' hr
        | ok l' =>
            rw [hr] at h
            simp only [Except.map] at h
            exact absurd h (by simp)

theorem removeAll_error (store : List SentVal) :
    ∀ (targets : List Nat) (acc : Except String (List Nat)),
      (∀ e, acc = .error e → e = "ValueError") →
      ∀ e,
        targets.foldl
          (fun acc t =>
            acc.bind fun l' => removeFirstVal store l' (getVal store t))
          acc = .error e →
        e = "ValueError" := by
  intro targets
  induction targets with
  | nil => intro acc hacc e h; exact hacc e h
  | cons t rest ih =>
      intro acc hacc e h
      refine ih _ ?_ e h
      intro e' h'
      cases acc with
      | error e'' =>
          simp only [Except.bind] at h'
          injection h' with h''
          exact h'' ▸ hacc e'' rfl
      | ok l' =>
          simp only [Except.bind] at h'
          exact removeFirstVal_error store l' (getVal store t) e' h'

theorem removeAll_error' (store : List SentVal) (l targets : List Nat)
    (e : String) (h : removeAll store l targets = .error e) :
    e = "ValueError" := by
  refine removeAll_error store targets (.ok l) ?_ e h
  intro e' h'
  exact absurd h' (by simp)

theorem loopBody_error (σ : AIState) (orig modif : List Nat) (a : Bool)
    (e : String) (h : loopBody σ orig modif a = .error e) :
    e = "ValueError" := by
  simp only [loopBody] at h
  split at h
  next e' heq =>
    injection h with h'
    exact h' ▸ removeAll_error' _ _ _ _ heq
  next modif₁ heq =>
    split at h
    next e' heq2 =>
      injection h with h'
      exact h' ▸ removeAll_error' _ _ _ _ heq2
    next modif₂ heq2 =>
      exact absurd h (by simp)

theorem loopBody_aliased_unchanged (σ : AIState) (orig modif : List Nat)
    (σ' : AIState) (l' : List Nat) (u : Bool)
    (h : loopBody σ orig modif true = .ok (σ', l', u)) : u = true := by
  simp only [loopBody, if_pos] at h
  split at h
  next e' heq => exact absurd h (by simp)
  next modif₁ heq =>
    split at h
    next e' heq2 => exact absurd h (by simp)
    next modif₂ heq2 =>
      injection h with h'
      have hu := congrArg (fun p => p.2.2) h'
      simp only at hu
      rw [← hu]
      simp

theorem loopRun_aliased (n : Nat) (σ : AIState) (orig modif : List Nat) :
    loopRun (n + 1) σ orig modif true =
      match loopBody σ orig modif true with
      | .error e => .error e
      | .ok (σ', l', _) => .ok (σ', l') := by
  show (match loopBody σ orig modif true with
    | .error e => Except.error e
    | .ok (σ', modif', unchanged) =>
        if unchanged then Except.ok (σ', modif')
        else loopRun n σ' modif' modif' true) = _
  cases hb : loopBody σ orig modif true with
  | error e => rfl
  | ok t =>
      obtain ⟨σ', l', u⟩ := t
      have hu := loopBody_aliased_unchanged σ orig modif σ' l' u hb
      subst hu
      rfl

theorem loopRun_fuel_two_suffices (n : Nat) (σ : AIState)
    (orig modif : List Nat) :
    loopRun (n + 2) σ orig modif false = loopRun 2 σ orig modif false := by
  show (match loopBody σ orig modif false with
    | .error e => Except.error e
    | .ok (σ', modif', unchanged) =>
        if unchanged then Except.ok (σ', modif')
        else loopRun (n + 1) σ' modif' modif' true) =
    (match loopBody σ orig modif false with
    | .error e => Except.error e
    | .ok (σ', modif', unchanged) =>
        if unchanged then Except.ok (σ', modif')
        else loopRun 1 σ' modif' modif' true)
  cases hb : loopBody σ orig modif false with
  | error e => rfl
  | ok t =>
      obtain ⟨σ', l', u⟩ := t
      cases u
      · show loopRun (n + 1) σ' l' l' true = loopRun 1 σ' l' l' true
        rw [loopRun_aliased n, loopRun_aliased 0]
      · rfl

theorem loopRun_two_error (σ : AIState) (orig modif : List Nat) (e : String)
    (h : loopRun 2 σ orig modif false = .error e) : e = "ValueError" := by
  revert h
  show (match loopBody σ orig modif false with
    | .error e => Except.error e
    | .ok (σ', modif', unchanged) =>
        if unchanged then Except.ok (σ', modif')
        else loopRun 1 σ' modif' modif' true) = .error e → e = "ValueError"
  cases hb : loopBody σ orig modif false with
  | error e' =>
      intro h
      injection h with h'
      exact h' ▸ loopBody_error _ _ _ _ _ hb
  | ok t =>
      obtain ⟨σ', l', u⟩ := t
      cases u
      · show loopRun 1 σ' l' l' true = Except.error e → e = "ValueError"
        rw [show (1 : Nat) = 0 + 1 from rfl, loopRun_aliased 0]
        cases hb2 : loopBody σ' l' l' true with
        | error e'' =>
            intro h
            injection h with h'
            exact h' ▸ loopBody_error _ _ _ _ _ hb2
        | ok t2 =>
            obtain ⟨a, b, c⟩ := t2
            intro h
            exact absurd h (by simp)
      · intro h
        exact absurd h (by simp)

/-- C4 (amended).  Every `add_knowledge` call terminates within at most 2
outer iterations of its `while True` loop: after a first iteration that
changes the constraint set, `knowledge_original = knowledge_modified`
makes the two names refer to the same list object, so the second
iteration's comparison is trivially true and the loop breaks — a constant
bound, well within O(cells on the board).  The loop can, however, also
abort by raising `ValueError` inside a list removal instead of reaching
the unchanged-judgement break (see the counterexample theorem): the result
with any fuel ≥ 2 equals the fuel-2 result and is never a fuel exhaustion. -/
theorem add_knowledge_terminates_in_two_iterations (σ : AIState)
    (cell : Cell) (count : Int) (F : Nat) (hF : 2 ≤ F) :
    addKnowledgeFuel F σ cell count = addKnowledge σ cell count ∧
    addKnowledgeFuel F σ cell count ≠ .error "fuel" := by
  obtain ⟨n, rfl⟩ : ∃ n, F = n + 2 := ⟨F - 2, by omega⟩
  have heq : addKnowledgeFuel (n + 2) σ cell count =
      addKnowledgeFuel 2 σ cell count := by
    show (match loopRun (n + 2) (addSentencePhase σ cell count)
        (addSentencePhase σ cell count).knowledge
        (addSentencePhase σ cell count).knowledge false with
      | .error e => Except.error e
      | .ok (σ₃, final) =>
          Except.ok ({ σ₃ with knowledge := final } : AIState)) =
      (match loopRun 2 (addSentencePhase σ cell count)
        (addSentencePhase σ cell count).knowledge
        (addSentencePhase σ cell count).knowledge false with
      | .error e => Except.error e
      | .ok (σ₃, final) =>
          Except.ok ({ σ₃ with knowledge := final } : AIState))
    rw [loopRun_fuel_two_suffices]
  refine ⟨heq, ?_⟩
  rw [heq]
  show (match loopRun 2 (addSentencePhase σ cell count)
      (addSentencePhase σ cell count).knowledge
      (addSentencePhase σ cell count).knowledge false with
    | .error e => Except.error e
    | .ok (σ₃, final) =>
        Except.ok ({ σ₃ with knowledge := final } : AIState)) ≠
      Except.error "fuel"
  cases hr : loopRun 2 (addSentencePhase σ cell count)
      (addSentencePhase σ cell count).knowledge
      (addSentencePhase σ cell count).knowledge false with
  | error e =>
      have hv := loopRun_two_error _ _ _ _ hr
      intro hcon
      injection hcon with h'
      rw [h'] at hv
      exact absurd hv (by decide)
  | ok p =>
      obtain ⟨σ₃, final⟩ := p
      intro hcon
      exact absurd hcon (by simp)

/-- Witness for C4's amended theorem at fuel 5 on a concrete call. -/
theorem add_knowledge_terminates_in_two_iterations_witness :
    addKnowledgeFuel 5 (initAI 2 2) (0, 0) 1 =
      addKnowledge (initAI 2 2) (0, 0) 1 ∧
    addKnowledgeFuel 5 (initAI 2 2) (0, 0) 1 ≠ .error "fuel" :=
  add_knowledge_terminates_in_two_iterations (initAI 2 2) (0, 0) 1 5
    (by decide)

/-- C4 counterexample.  The claim says the loop *always* reaches an
iteration judged unchanged and breaks; on the realistic crashing input of
C3 (3×3 board, mine at `(2,2)`, truthful counts), the third call's loop
aborts with `ValueError` inside `knowledge_modified.remove` and never
reaches the break. -/
theorem add_knowledge_loop_aborts_without_break :
    (match runObs (initAI 3 3) [((2,1),1), ((1,2),1)] with
     | .ok σ => addKnowledge σ (1,1) 1
     | .error e => .error e) = .error "ValueError" := by
  decide

/-! ## C8: monotonicity of the confirmed sets -/

/-- One engine step only extends the confirmed-mine and confirmed-safe
sets and preserves the board dimensions. -/
def Grows (σ σ' : AIState) : Prop :=
  σ.mines ⊆ σ'.mines ∧ σ.safes ⊆ σ'.safes ∧
  σ'.height = σ.height ∧ σ'.width = σ.width

theorem grows_refl (σ : AIState) : Grows σ σ :=
  ⟨Finset.Subset.refl _, Finset.Subset.refl _, rfl, rfl⟩

theorem grows_trans {σ₁ σ₂ σ₃ : AIState} (h1 : Grows σ₁ σ₂)
    (h2 : Grows σ₂ σ₃) : Grows σ₁ σ₃ :=
  ⟨h1.1.trans h2.1, h1.2.1.trans h2.2.1, h2.2.2.1.trans h1.2.2.1,
   h2.2.2.2.trans h1.2.2.2⟩

theorem grows_markMine (σ : AIState) (c : Cell) : Grows σ (aiMarkMine σ c) :=
  ⟨Finset.subset_insert c σ.mines, Finset.Subset.refl _, rfl, rfl⟩

theorem grows_markSafe (σ : AIState) (c : Cell) : Grows σ (aiMarkSafe σ c) :=
  ⟨Finset.Subset.refl _, Finset.subset_insert c σ.safes, rfl, rfl⟩

theorem grows_foldl (f : AIState → Cell → AIState)
    (hf : ∀ σ c, Grows σ (f σ c)) :
    ∀ (l : List Cell) (σ : AIState), Grows σ (l.foldl f σ) := by
  intro l
  induction l with
  | nil => exact grows_refl
  | cons c rest ih =>
      intro σ
      exact grows_trans (hf σ c) (ih (f σ c))

theorem grows_applyMarks (σ : AIState) (safeL mineL : List Cell) :
    Grows σ (applyMarks σ safeL mineL) :=
  grows_trans (grows_foldl aiMarkSafe grows_markSafe safeL σ)
    (grows_foldl aiMarkMine grows_markMine mineL _)

theorem pushNew_state : ∀ (vs : List SentVal) (σ : AIState) (l : List Nat),
    (pushNew σ l vs).1 = { σ with store := σ.store ++ vs } := by
  intro vs
  induction vs with
  | nil =>
      intro σ l
      show σ = _
      cases σ
      simp
  | cons v rest ih =>
      intro σ l
      show (pushNew { σ with store := σ.store ++ [v] }
        (l ++ [σ.store.length]) rest).1 = _
      rw [ih]
      simp

theorem grows_pushNew (σ : AIState) (l : List Nat) (vs : List SentVal) :
    Grows σ (pushNew σ l vs).1 := by
  rw [pushNew_state]
  exact ⟨Finset.Subset.refl _, Finset.Subset.refl _, rfl, rfl⟩

theorem grows_loopBody (σ : AIState) (orig modif : List Nat) (a : Bool)
    (σ' : AIState) (l' : List Nat) (u : Bool)
    (h : loopBody σ orig modif a = .ok (σ', l', u)) : Grows σ σ' := by
  simp only [loopBody] at h
  split at h
  next e heq => exact absurd h (by simp)
  next modif₁ heq =>
    split at h
    next e heq2 => exact absurd h (by simp)
    next modif₂ heq2 =>
      injection h with h'
      have hσ := congrArg Prod.fst h'
      simp only at hσ
      rw [← hσ]
      exact grows_trans (grows_applyMarks σ _ _) (grows_pushNew _ _ _)

theorem grows_loopRun :
    ∀ (fuel : Nat) (σ : AIState) (orig modif : List Nat) (a : Bool)
      (σ' : AIState) (l' : List Nat),
      loopRun fuel σ orig modif a = .ok (σ', l') → Grows σ σ' := by
  intro fuel
  induction fuel with
  | zero => intro σ orig modif a σ' l' h; exact absurd h (by simp [loopRun])
  | succ n ih =>
      intro σ orig modif a σ' l' h
      show Grows σ σ'
      revert h
      show (match loopBody σ orig modif a with
        | .error e => Except.error e
        | .ok (σ₁, modif₁, unchanged) =>
            if unchanged then Except.ok (σ₁, modif₁)
            else loopRun n σ₁ modif₁ modif₁ true) = Except.ok (σ', l') →
        Grows σ σ'
      cases hb : loopBody σ orig modif a with
      | error e => intro h; exact absurd h (by simp)
      | ok t =>
          obtain ⟨σ₁, l₁, u⟩ := t
          have hg := grows_loopBody σ orig modif a σ₁ l₁ u hb
          cases u
          · intro h
            exact grows_trans hg (ih σ₁ l₁ l₁ true σ' l' h)
          · intro h
            injection h with h'
            have : σ₁ = σ' := congrArg Prod.fst h'
            exact this ▸ hg

theorem grows_addSentencePhase (σ : AIState) (cell : Cell) (count : Int) :
    Grows σ (addSentencePhase σ cell count) :=
  ⟨Finset.Subset.refl _, Finset.subset_insert cell σ.safes, rfl, rfl⟩

theorem grows_addKnowledge (σ : AIState) (cell : Cell) (count : Int)
    (σ' : AIState) (h : addKnowledge σ cell count = .ok σ') :
    Grows σ σ' := by
  revert h
  show (match loopRun 2 (addSentencePhase σ cell count)
      (addSentencePhase σ cell count).knowledge
      (addSentencePhase σ cell count).knowledge false with
    | .error e => Except.error e
    | .ok (σ₃, final) =>
        Except.ok ({ σ₃ with knowledge := final } : AIState)) =
      Except.ok σ' → Grows σ σ'
  cases hr : loopRun 2 (addSentencePhase σ cell count)
      (addSentencePhase σ cell count).knowledge
      (addSentencePhase σ cell count).knowledge false with
  | error e => intro h; exact absurd h (by simp)
  | ok p =>
      obtain ⟨σ₃, final⟩ := p
      intro h
      injection h with h'
      have hg := grows_trans (grows_addSentencePhase σ cell count)
        (grows_loopRun 2 _ _ _ false σ₃ final hr)
      rw [← h']
      exact ⟨hg.1, hg.2.1, hg.2.2.1, hg.2.2.2⟩

theorem grows_runObs :
    ∀ (obs : List (Cell × Int)) (σ σ' : AIState),
      runObs σ obs = .ok σ' → Grows σ σ' := by
  intro obs
  induction obs with
  | nil =>
      intro σ σ' h
      injection h with h'
      exact h' ▸ grows_refl σ
  | cons p rest ih =>
      intro σ σ' h
      obtain ⟨c, n⟩ := p
      revert h
      show (match addKnowledge σ c n with
        | .error e => Except.error e
        | .ok σ₁ => runObs σ₁ rest) = Except.ok σ' → Grows σ σ'
      cases ha : addKnowledge σ c n with
      | error e => intro h; exact absurd h (by simp)
      | ok σ₁ =>
          intro h
          exact grows_trans (grows_addKnowledge σ c n σ₁ ha) (ih σ₁ σ' h)

/-- C8.  Across any sequence of `add_knowledge` calls the confirmed mines
and confirmed safes only grow: every member before the calls is still a
member after them, and no cell is ever removed (each of `mark_mine`,
`mark_safe` only inserts into these sets; nothing deletes from them).
`make_safe_move`/`make_random_move` are read-only queries in the embedding
and cannot shrink the sets either. -/
theorem confirmed_sets_monotone (σ : AIState) (obs : List (Cell × Int))
    (σ' : AIState) (h : runObs σ obs = .ok σ') :
    σ.mines ⊆ σ'.mines ∧ σ.safes ⊆ σ'.safes :=
  ⟨(grows_runObs obs σ σ' h).1, (grows_runObs obs σ σ' h).2.1⟩

/-- Witness for C8 on a concrete one-call run. -/
theorem confirmed_sets_monotone_witness :
    (initAI 1 1).mines ⊆
      (⟨1, 1, [⟨∅, 0⟩], {(0,0)}, ∅, {(0,0)}, []⟩ : AIState).mines ∧
    (initAI 1 1).safes ⊆
      (⟨1, 1, [⟨∅, 0⟩], {(0,0)}, ∅, {(0,0)}, []⟩ : AIState).safes :=
  confirmed_sets_monotone (initAI 1 1) [((0,0), 0)]
    ⟨1, 1, [⟨∅, 0⟩], {(0,0)}, ∅, {(0,0)}, []⟩ (by decide)

/-! ## C7: disjointness under the observe contract

The counterexample above (`disjointness_violated_without_contract`) shows
the unrestricted claim false.  The remaining theorems prove the amended
claim: for observations that honour the observe contract — every observed
cell is not a mine of one fixed board `M` and every count is the true
`nearby_mines` value for `M` — every sentence the engine ever stores is a
*true* statement about `M`, hence confirmed mines are real mines and
confirmed safes are real non-mines, and the two sets cannot intersect.
`make_safe_move` and `make_random_move` read but never write the state, so
interleaving them changes nothing. -/

/-- A sentence value is a true statement about the mine set `M`: exactly
`count` of its cells are mines. -/
def sentTrue (M : Finset Cell) (v : SentVal) : Prop :=
  v.count = (((v.cells ∩ M).card : Nat) : Int)

/-- The AI state is faithful to a board whose mines are exactly `M`. -/
def Faithful (M : Finset Cell) (σ : AIState) : Prop :=
  (∀ v ∈ σ.store, sentTrue M v) ∧ σ.mines ⊆ M ∧ ∀ x ∈ σ.safes, x ∉ M

theorem sentTrue_default (M : Finset Cell) : sentTrue M ⟨∅, 0⟩ := by
  simp [sentTrue]

theorem getVal_sentTrue (M : Finset Cell) :
    ∀ (store : List SentVal), (∀ v ∈ store, sentTrue M v) →
      ∀ id, sentTrue M (getVal store id) := by
  intro store
  induction store with
  | nil => intro _ id; exact sentTrue_default M
  | cons v rest ih =>
      intro h id
      cases id with
      | zero => exact h v (List.mem_cons_self v rest)
      | succ n =>
          exact ih (fun w hw => h w (List.mem_cons_of_mem _ hw)) n

theorem sentMarkSafe_true {M : Finset Cell} {x : Cell} {v : SentVal}
    (hx : x ∉ M) (hv : sentTrue M v) : sentTrue M (sentMarkSafe v x) := by
  unfold sentMarkSafe
  split
  · have hset : v.cells.erase x ∩ M = v.cells ∩ M := by
      ext y
      simp only [Finset.mem_inter, Finset.mem_erase]
      constructor
      · rintro ⟨⟨-, hy⟩, hm⟩; exact ⟨hy, hm⟩
      · rintro ⟨hy, hm⟩
        exact ⟨⟨fun he => hx (he ▸ hm), hy⟩, hm⟩
    show (⟨v.cells.erase x, v.count⟩ : SentVal).count = _
    simp only [sentTrue] at hv
    simpa [hset] using hv
  · exact hv

theorem sentMarkMine_true {M : Finset Cell} {x : Cell} {v : SentVal}
    (hx : x ∈ M) (hv : sentTrue M v) : sentTrue M (sentMarkMine v x) := by
  unfold sentMarkMine
  split
  next hc =>
    have hmem : x ∈ v.cells ∩ M := Finset.mem_inter.mpr ⟨hc, hx⟩
    have hset : v.cells.erase x ∩ M = (v.cells ∩ M).erase x := by
      ext y
      simp only [Finset.mem_inter, Finset.mem_erase]
      tauto
    have hpos : 1 ≤ (v.cells ∩ M).card := Finset.card_pos.mpr ⟨x, hmem⟩
    show (⟨v.cells.erase x, v.count - 1⟩ : SentVal).count = _
    simp only [sentTrue] at hv
    show v.count - 1 = _
    rw [hset, Finset.card_erase_of_mem hmem]
    omega
  next => exact hv

theorem mapOnIds_preserve (P : SentVal → Prop) (ks : List Nat)
    (f : SentVal → SentVal) (hf : ∀ v, P v → P (f v)) :
    ∀ (s : List SentVal) (i : Nat), (∀ v ∈ s, P v) →
      ∀ v ∈ mapOnIds ks f s i, P v := by
  intro s
  induction s with
  | nil => intro i _ v hv; exact absurd hv (List.not_mem_nil v)
  | cons w rest ih =>
      intro i h v hv
      rcases List.mem_cons.mp hv with rfl | hv'
      · split
        · exact hf w (h w (List.mem_cons_self w rest))
        · exact h w (List.mem_cons_self w rest)
      · exact ih (i + 1) (fun u hu => h u (List.mem_cons_of_mem _ hu)) v hv'

theorem aiMarkSafe_faithful {M : Finset Cell} {σ : AIState} {x : Cell}
    (hx : x ∉ M) (h : Faithful M σ) : Faithful M (aiMarkSafe σ x) := by
  refine ⟨?_, h.2.1, ?_⟩
  · exact mapOnIds_preserve (sentTrue M) σ.knowledge _
      (fun v hv => sentMarkSafe_true hx hv) σ.store 0 h.1
  · intro y hy
    rcases Finset.mem_insert.mp hy with rfl | hy'
    · exact hx
    · exact h.2.2 y hy'

theorem aiMarkMine_faithful {M : Finset Cell} {σ : AIState} {x : Cell}
    (hx : x ∈ M) (h : Faithful M σ) : Faithful M (aiMarkMine σ x) := by
  refine ⟨?_, ?_, h.2.2⟩
  · exact mapOnIds_preserve (sentTrue M) σ.knowledge _
      (fun v hv => sentMarkMine_true hx hv) σ.store 0 h.1
  · exact Finset.insert_subset hx h.2.1

theorem foldl_markSafe_faithful {M : Finset Cell} :
    ∀ (l : List Cell) (σ : AIState), (∀ c ∈ l, c ∉ M) → Faithful M σ →
      Faithful M (l.foldl aiMarkSafe σ) := by
  intro l
  induction l with
  | nil => intro σ _ h; exact h
  | cons c rest ih =>
      intro σ hl h
      exact ih (aiMarkSafe σ c)
        (fun d hd => hl d (List.mem_cons_of_mem _ hd))
        (aiMarkSafe_faithful (hl c (List.mem_cons_self c rest)) h)

theorem foldl_markMine_faithful {M : Finset Cell} :
    ∀ (l : List Cell) (σ : AIState), (∀ c ∈ l, c ∈ M) → Faithful M σ →
      Faithful M (l.foldl aiMarkMine σ) := by
  intro l
  induction l with
  | nil => intro σ _ h; exact h
  | cons c rest ih =>
      intro σ hl h
      exact ih (aiMarkMine σ c)
        (fun d hd => hl d (List.mem_cons_of_mem _ hd))
        (aiMarkMine_faithful (hl c (List.mem_cons_self c rest)) h)

theorem applyMarks_faithful {M : Finset Cell} {σ : AIState}
    {safeL mineL : List Cell} (hs : ∀ c ∈ safeL, c ∉ M)
    (hm : ∀ c ∈ mineL, c ∈ M) (h : Faithful M σ) :
    Faithful M (applyMarks σ safeL mineL) :=
  foldl_markMine_faithful mineL _ hm (foldl_markSafe_faithful safeL σ hs h)

theorem resolveStep_spec {M : Finset Cell} {store : List SentVal}
    (hstore : ∀ v ∈ store, sentTrue M v)
    (acc : List Cell × List Cell × List Nat) (id : Nat)
    (h1 : ∀ c ∈ acc.1, c ∉ M) (h2 : ∀ c ∈ acc.2.1, c ∈ M) :
    (∀ c ∈ (resolveStep store acc id).1, c ∉ M) ∧
    (∀ c ∈ (resolveStep store acc id).2.1, c ∈ M) := by
  have hv : sentTrue M (getVal store id) := getVal_sentTrue M store hstore id
  simp only [resolveStep]
  split
  next hzero =>
    refine ⟨?_, h2⟩
    intro c hc
    rcases List.mem_append.mp hc with hc' | hc'
    · exact h1 c hc'
    · have hempty : (getVal store id).cells ∩ M = ∅ := by
        simp only [sentTrue, hzero] at hv
        exact Finset.card_eq_zero.mp (by omega)
      intro hcM
      have : c ∈ (getVal store id).cells ∩ M :=
        Finset.mem_inter.mpr ⟨mem_cellsToList.mp hc', hcM⟩
      rw [hempty] at this
      exact absurd this (Finset.not_mem_empty c)
  next =>
    split
    next hfull =>
      refine ⟨h1, ?_⟩
      intro c hc
      rcases List.mem_append.mp hc with hc' | hc'
      · exact h2 c hc'
      · have hsubset : (getVal store id).cells ⊆ M := by
          simp only [sentTrue, hfull] at hv
          have hcard : (getVal store id).cells.card ≤
              ((getVal store id).cells ∩ M).card := by omega
          have heq : (getVal store id).cells ∩ M = (getVal store id).cells :=
            Finset.eq_of_subset_of_card_le Finset.inter_subset_left hcard
          intro y hy
          have hy2 : y ∈ (getVal store id).cells ∩ M := by
            rw [heq]; exact hy
          exact (Finset.mem_inter.mp hy2).2
        exact hsubset (mem_cellsToList.mp hc')
    next => exact ⟨h1, h2⟩

theorem scanResolve_spec {M : Finset Cell} {store : List SentVal}
    (hstore : ∀ v ∈ store, sentTrue M v) (l : List Nat) :
    (∀ c ∈ (scanResolve store l).1, c ∉ M) ∧
    (∀ c ∈ (scanResolve store l).2.1, c ∈ M) := by
  unfold scanResolve
  suffices haux : ∀ (l : List Nat) (acc : List Cell × List Cell × List Nat),
      (∀ c ∈ acc.1, c ∉ M) → (∀ c ∈ acc.2.1, c ∈ M) →
      (∀ c ∈ (l.foldl (resolveStep store) acc).1, c ∉ M) ∧
      (∀ c ∈ (l.foldl (resolveStep store) acc).2.1, c ∈ M) by
    exact haux l ([], [], [])
      (fun c hc => absurd hc (List.not_mem_nil c))
      (fun c hc => absurd hc (List.not_mem_nil c))
  intro l
  induction l with
  | nil => intro acc h1 h2; exact ⟨h1, h2⟩
  | cons id rest ih =>
      intro acc h1 h2
      have hstep := resolveStep_spec hstore acc id h1 h2
      exact ih (resolveStep store acc id) hstep.1 hstep.2

theorem subsumeStep_true {M : Finset Cell} {store : List SentVal}
    (hstore : ∀ v ∈ store, sentTrue M v) (idA : Nat)
    (acc : List Nat × List SentVal) (idB : Nat)
    (hacc : ∀ v ∈ acc.2, sentTrue M v) :
    ∀ v ∈ (subsumeStep store idA acc idB).2, sentTrue M v := by
  simp only [subsumeStep]
  split
  next hcond =>
    intro v hv
    rcases List.mem_append.mp hv with hv' | hv'
    · exact hacc v hv'
    · have hveq := List.mem_singleton.mp hv'
      subst hveq
      have ha := getVal_sentTrue M store hstore idA
      have hb := getVal_sentTrue M store hstore idB
      have hsub := hcond.1
      have hset : ((getVal store idA).cells \ (getVal store idB).cells) ∩ M =
          ((getVal store idA).cells ∩ M) \ ((getVal store idB).cells ∩ M) := by
        ext y
        simp only [Finset.mem_inter, Finset.mem_sdiff]
        constructor
        · rintro ⟨⟨hy, hny⟩, hm⟩
          exact ⟨⟨hy, hm⟩, fun hc => hny hc.1⟩
        · rintro ⟨⟨hy, hm⟩, hno⟩
          exact ⟨⟨hy, fun hc => hno ⟨hc, hm⟩⟩, hm⟩
      have hsubM : (getVal store idB).cells ∩ M ⊆
          (getVal store idA).cells ∩ M :=
        Finset.inter_subset_inter hsub (Finset.Subset.refl M)
      have hle := Finset.card_le_card hsubM
      show _ = _
      simp only [sentTrue] at ha hb ⊢
      rw [hset, Finset.card_sdiff hsubM]
      omega
  next => exact hacc

theorem foldl_subsume_true {M : Finset Cell} {store : List SentVal}
    (hstore : ∀ v ∈ store, sentTrue M v) (idA : Nat) :
    ∀ (modif : List Nat) (acc : List Nat × List SentVal),
      (∀ v ∈ acc.2, sentTrue M v) →
      ∀ v ∈ (modif.foldl (subsumeStep store idA) acc).2, sentTrue M v := by
  intro modif
  induction modif with
  | nil => intro acc hacc; exact hacc
  | cons b rest ih =>
      intro acc hacc
      exact ih (subsumeStep store idA acc b)
        (subsumeStep_true hstore idA acc b hacc)

theorem scanSubsume_true {M : Finset Cell} {store : List SentVal}
    (hstore : ∀ v ∈ store, sentTrue M v) (orig modif : List Nat) :
    ∀ v ∈ (scanSubsume store orig modif).2, sentTrue M v := by
  unfold scanSubsume
  suffices haux : ∀ (l : List Nat) (acc : List Nat × List SentVal),
      (∀ v ∈ acc.2, sentTrue M v) →
      ∀ v ∈ (l.foldl
        (fun acc idA => modif.foldl (subsumeStep store idA) acc) acc).2,
        sentTrue M v by
    exact haux orig ([], []) (fun v hv => absurd hv (List.not_mem_nil v))
  intro l
  induction l with
  | nil => intro acc hacc; exact hacc
  | cons a rest ih =>
      intro acc hacc
      exact ih _ (foldl_subsume_true hstore a modif acc hacc)

theorem pushNew_faithful {M : Finset Cell} {σ : AIState} {l : List Nat}
    {vs : List SentVal} (hvs : ∀ v ∈ vs, sentTrue M v)
    (h : Faithful M σ) : Faithful M (pushNew σ l vs).1 := by
  rw [pushNew_state]
  refine ⟨?_, h.2.1, h.2.2⟩
  intro v hv
  rcases List.mem_append.mp hv with hv' | hv'
  · exact h.1 v hv'
  · exact hvs v hv'

theorem loopBody_faithful {M : Finset Cell} (σ : AIState)
    (orig modif : List Nat) (a : Bool) (σ' : AIState) (l' : List Nat)
    (u : Bool) (hF : Faithful M σ)
    (h : loopBody σ orig modif a = .ok (σ', l', u)) : Faithful M σ' := by
  simp only [loopBody] at h
  split at h
  next e heq => exact absurd h (by simp)
  next modif₁ heq =>
    split at h
    next e heq2 => exact absurd h (by simp)
    next modif₂ heq2 =>
      injection h with h'
      have hσ := congrArg Prod.fst h'
      simp only at hσ
      rw [← hσ]
      have hres := scanResolve_spec hF.1 (if a then modif else orig)
      have hσ1 : Faithful M (applyMarks σ
          (scanResolve σ.store (if a then modif else orig)).1
          (scanResolve σ.store (if a then modif else orig)).2.1) :=
        applyMarks_faithful hres.1 hres.2 hF
      exact pushNew_faithful (scanSubsume_true hσ1.1 _ _) hσ1

theorem loopRun_faithful {M : Finset Cell} :
    ∀ (fuel : Nat) (σ : AIState) (orig modif : List Nat) (a : Bool)
      (σ' : AIState) (l' : List Nat), Faithful M σ →
      loopRun fuel σ orig modif a = .ok (σ', l') → Faithful M σ' := by
  intro fuel
  induction fuel with
  | zero =>
      intro σ orig modif a σ' l' _ h
      exact absurd h (by simp [loopRun])
  | succ n ih =>
      intro σ orig modif a σ' l' hF h
      revert h
      show (match loopBody σ orig modif a with
        | .error e => Except.error e
        | .ok (σ₁, modif₁, unchanged) =>
            if unchanged then Except.ok (σ₁, modif₁)
            else loopRun n σ₁ modif₁ modif₁ true) = Except.ok (σ', l') →
        Faithful M σ'
      cases hb : loopBody σ orig modif a with
      | error e => intro h; exact absurd h (by simp)
      | ok t =>
          obtain ⟨σ₁, l₁, u⟩ := t
          have hF₁ := loopBody_faithful σ orig modif a σ₁ l₁ u hF hb
          cases u
          · intro h
            exact ih σ₁ l₁ l₁ true σ' l' hF₁ h
          · intro h
            injection h with h'
            have : σ₁ = σ' := congrArg Prod.fst h'
            exact this ▸ hF₁

theorem addSentencePhase_faithful {M : Finset Cell} {σ : AIState}
    {cell : Cell} {count : Int} (hc : cell ∉ M)
    (hcount : count = ((nearbyMines σ.height σ.width M cell : Nat) : Int))
    (hF : Faithful M σ) : Faithful M (addSentencePhase σ cell count) := by
  have hFm : Faithful M ({ σ with movesMade := insert cell σ.movesMade }) :=
    ⟨hF.1, hF.2.1, hF.2.2⟩
  have hFs : Faithful M
      (aiMarkSafe { σ with movesMade := insert cell σ.movesMade } cell) :=
    aiMarkSafe_faithful hc hFm
  refine ⟨?_, hFs.2.1, hFs.2.2⟩
  intro v hv
  simp only [addSentencePhase, aiMarkSafe] at hv
  rcases List.mem_append.mp hv with hv' | hv'
  · exact hFs.1 v hv'
  · have hveq := List.mem_singleton.mp hv'
    subst hveq
    have hfilter : (neighborsOf σ.height σ.width cell).filter
        (fun n => n ∉ insert cell σ.safes ∧ n ∈ σ.mines) =
        neighborsOf σ.height σ.width cell ∩ σ.mines := by
      ext x
      simp only [Finset.mem_filter, Finset.mem_inter, Finset.mem_insert]
      constructor
      · rintro ⟨hx, _, hmn⟩; exact ⟨hx, hmn⟩
      · rintro ⟨hx, hmn⟩
        refine ⟨hx, fun hor => ?_, hmn⟩
        have hxM : x ∈ M := hF.2.1 hmn
        rcases hor with rfl | hsafe
        · exact hc hxM
        · exact hF.2.2 x hsafe hxM
    have hrepeat : (neighborsOf σ.height σ.width cell \
        (neighborsOf σ.height σ.width cell).filter
          (fun n => n ∈ insert cell σ.safes ∨ n ∈ σ.mines)) ∩ M =
        (neighborsOf σ.height σ.width cell ∩ M) \
        (neighborsOf σ.height σ.width cell ∩ σ.mines) := by
      ext x
      simp only [Finset.mem_inter, Finset.mem_sdiff, Finset.mem_filter,
        Finset.mem_insert]
      constructor
      · rintro ⟨⟨hx, hno⟩, hm⟩
        exact ⟨⟨hx, hm⟩, fun hcm => hno ⟨hx, Or.inr hcm.2⟩⟩
      · rintro ⟨⟨hx, hm⟩, hno⟩
        refine ⟨⟨hx, fun hyes => ?_⟩, hm⟩
        rcases hyes.2 with hin | hmn
        · rcases hin with rfl | hsafe
          · exact hc hm
          · exact hF.2.2 x hsafe hm
        · exact hno ⟨hx, hmn⟩
    have hsub2 : neighborsOf σ.height σ.width cell ∩ σ.mines ⊆
        neighborsOf σ.height σ.width cell ∩ M := by
      intro x hx
      have hx' := Finset.mem_inter.mp hx
      exact Finset.mem_inter.mpr ⟨hx'.1, hF.2.1 hx'.2⟩
    have hle := Finset.card_le_card hsub2
    simp only [sentTrue]
    show count - _ = _
    rw [hfilter, hrepeat, Finset.card_sdiff hsub2, hcount]
    simp only [nearbyMines]
    omega

theorem addKnowledge_faithful {M : Finset Cell} {σ : AIState} {cell : Cell}
    {count : Int} {σ' : AIState} (hc : cell ∉ M)
    (hcount : count = ((nearbyMines σ.height σ.width M cell : Nat) : Int))
    (hF : Faithful M σ) (h : addKnowledge σ cell count = .ok σ') :
    Faithful M σ' := by
  revert h
  show (match loopRun 2 (addSentencePhase σ cell count)
      (addSentencePhase σ cell count).knowledge
      (addSentencePhase σ cell count).knowledge false with
    | .error e => Except.error e
    | .ok (σ₃, final) =>
        Except.ok ({ σ₃ with knowledge := final } : AIState)) =
      Except.ok σ' → Faithful M σ'
  cases hr : loopRun 2 (addSentencePhase σ cell count)
      (addSentencePhase σ cell count).knowledge
      (addSentencePhase σ cell count).knowledge false with
  | error e => intro h; exact absurd h (by simp)
  | ok p =>
      obtain ⟨σ₃, final⟩ := p
      intro h
      injection h with h'
      have hF₃ := loopRun_faithful 2 _ _ _ false σ₃ final
        (addSentencePhase_faithful hc hcount hF) hr
      rw [← h']
      exact ⟨hF₃.1, hF₃.2.1, hF₃.2.2⟩

theorem runObs_faithful {M : Finset Cell} :
    ∀ (obs : List (Cell × Int)) (σ σ' : AIState), Faithful M σ →
      (∀ p ∈ obs, p.1 ∉ M ∧
        p.2 = ((nearbyMines σ.height σ.width M p.1 : Nat) : Int)) →
      runObs σ obs = .ok σ' → Faithful M σ' := by
  intro obs
  induction obs with
  | nil =>
      intro σ σ' hF _ h
      injection h with h'
      exact h' ▸ hF
  | cons p rest ih =>
      intro σ σ' hF hobs h
      obtain ⟨c, n⟩ := p
      revert h
      show (match addKnowledge σ c n with
        | .error e => Except.error e
        | .ok σ₁ => runObs σ₁ rest) = Except.ok σ' → Faithful M σ'
      cases ha : addKnowledge σ c n with
      | error e => intro h; exact absurd h (by simp)
      | ok σ₁ =>
          intro h
          have hhead := hobs (c, n) (List.mem_cons_self _ _)
          have hF₁ := addKnowledge_faithful hhead.1 hhead.2 hF ha
          have hdims := grows_addKnowledge σ c n σ₁ ha
          refine ih σ₁ σ' hF₁ ?_ h
          intro q hq
          refine ⟨(hobs q (List.mem_cons_of_mem _ hq)).1, ?_⟩
          rw [hdims.2.2.1, hdims.2.2.2]
          exact (hobs q (List.mem_cons_of_mem _ hq)).2

/-- C7 (amended).  Starting from a fresh `MinesweeperAI` on an `h × w`
board whose actual mine set is `M`, and calling `add_knowledge` only in
accordance with the observe contract — each observed cell is not a mine
and each count is the true `nearby_mines` value — the confirmed mines and
confirmed safes are disjoint whenever the run returns.  Every sentence the
engine stores stays a true statement about `M`, so confirmed mines lie in
`M` and confirmed safes outside `M`.  Since both sets only grow
(`confirmed_sets_monotone`), disjointness after every prefix of the
sequence gives disjointness at every intermediate point as well, and
`make_safe_move` / `make_random_move` never mutate the state.  Without the
contract the claim is false (`disjointness_violated_without_contract`). -/
theorem confirmed_mines_safes_disjoint (h w : Nat) (M : Finset Cell)
    (obs : List (Cell × Int)) (σ' : AIState)
    (hobs : ∀ p ∈ obs, p.1 ∉ M ∧
      p.2 = ((nearbyMines h w M p.1 : Nat) : Int))
    (hrun : runObs (initAI h w) obs = .ok σ') :
    σ'.mines ∩ σ'.safes = ∅ := by
  have hinit : Faithful M (initAI h w) :=
    ⟨fun v hv => absurd hv (List.not_mem_nil v),
     Finset.empty_subset M,
     fun x hx => absurd hx (Finset.not_mem_empty x)⟩
  have hF := runObs_faithful obs (initAI h w) σ' hinit hobs hrun
  refine Finset.eq_empty_iff_forall_not_mem.mpr ?_
  intro x hx
  have hx' := Finset.mem_inter.mp hx
  exact hF.2.2 x hx'.2 (hF.2.1 hx'.1)

/-- Witness for C7's amended theorem on a concrete truthful game. -/
theorem confirmed_mines_safes_disjoint_witness :
    (⟨3, 3, [⟨{(1,0),(1,1),(1,2),(2,0),(2,2)}, 1⟩],
      {(2,1)}, ∅, {(2,1)}, [0]⟩ : AIState).mines ∩
    (⟨3, 3, [⟨{(1,0),(1,1),(1,2),(2,0),(2,2)}, 1⟩],
      {(2,1)}, ∅, {(2,1)}, [0]⟩ : AIState).safes = ∅ :=
  confirmed_mines_safes_disjoint 3 3 {(1,1)} [((2,1), 1)]
    ⟨3, 3, [⟨{(1,0),(1,1),(1,2),(2,0),(2,2)}, 1⟩],
      {(2,1)}, ∅, {(2,1)}, [0]⟩
    (by decide) (by decide)
